import Mathlib

/-!
Verification of the developer tool-execution core
(crates/goose-mcp/src/developer/mod.rs).

The shallow embedding below translates the pure content of the Rust
functions into Lean:

* file contents and messages are Lean `String`s (Rust `String`/`&str`);
* the per-path undo history (a `HashMap<PathBuf, Vec<String>>` guarded by a
  mutex) is modelled for the single path an operation touches: a state
  record holding the optional file content and the `Vec` of prior contents
  (push appends at the end, pop takes the last element, exactly as
  `Vec::push`/`Vec::pop`);
* filesystem reads and writes are modelled as reading/updating that state;
  I/O failures (which surface as `ExecutionError`) are outside the model;
* Rust standard-library string routines used by the source
  (`str::lines`, `str::matches`, `str::replace`, `str::split_whitespace`,
  `slice::join`) are given faithful executable definitions over `List Char`
  with `String` wrappers.
-/

/-- The two error kinds of `mcp_core::handler::ToolError` used by the
developer router: `InvalidParameters` and `ExecutionError`, each carrying
the formatted message. -/
inductive ToolError where
  | InvalidParameters (msg : String)
  | ExecutionError (msg : String)
deriving DecidableEq, Repr

deriving instance DecidableEq for Except

/-! ### Rust `str::lines` -/

/-- Split a character list at every newline character, `String::splitOn`
style: the result is always nonempty and has one part per `'\n'` plus one. -/
def splitNlAux : List Char → List Char → List (List Char)
  | [], acc => [acc.reverse]
  | c :: cs, acc =>
    if c = '\n' then acc.reverse :: splitNlAux cs [] else splitNlAux cs (c :: acc)

def splitNlC (s : List Char) : List (List Char) := splitNlAux s []

/-- Strip one trailing carriage return, as Rust `str::lines` does for a
line that was terminated by the two-character sequence CR LF. -/
def stripCRC (l : List Char) : List Char :=
  if l.getLast? = some '\r' then l.dropLast else l

/-- Rust `str::lines`: split at `'\n'`, strip a `'\r'` that immediately
preceded a `'\n'`, and treat the final line ending as optional (a trailing
empty fragment is dropped; a final fragment without a terminator keeps any
trailing `'\r'`). -/
def rustLinesC (s : List Char) : List (List Char) :=
  let parts := splitNlC s
  let front := parts.dropLast.map stripCRC
  match parts.getLast? with
  | some [] => front
  | some l => front ++ [l]
  | none => front

/-- Rust `slice::join("\n")`: concatenate the parts with a single `'\n'`
between consecutive parts. -/
def joinNlC : List (List Char) → List Char
  | [] => []
  | [l] => l
  | l :: ls => l ++ '\n' :: joinNlC ls

def rustLinesStr (s : String) : List String :=
  (rustLinesC s.data).map (fun l => String.mk l)

def joinLines (ls : List String) : String :=
  String.mk (joinNlC (ls.map String.data))

/-! ### Rust `str::split_whitespace` -/

/-- Rust `str::split_whitespace`: maximal runs of non-whitespace
characters, in order; leading, trailing and repeated whitespace produce no
empty tokens. -/
def splitWsAux : List Char → List Char → List (List Char)
  | [], acc => if acc = [] then [] else [acc.reverse]
  | c :: cs, acc =>
    if c.isWhitespace then
      if acc = [] then splitWsAux cs [] else acc.reverse :: splitWsAux cs []
    else
      splitWsAux cs (c :: acc)

def splitWs (s : String) : List String :=
  (splitWsAux s.data []).map (fun l => String.mk l)

/-! ### Rust `str::matches(pat).count()` and `str::replace` -/

/-- Leftmost non-overlapping scan counting occurrences of `pat`, for
nonempty `pat`. `skip` is the number of characters of a just-matched
occurrence still to be consumed before matching may resume. -/
def scanCount (pat : List Char) : List Char → Nat → Nat
  | [], _ => 0
  | c :: cs, skip =>
    if skip > 0 then scanCount pat cs (skip - 1)
    else if pat.isPrefixOf (c :: cs) then 1 + scanCount pat cs (pat.length - 1)
    else scanCount pat cs 0

/-- Rust `str::matches(pat).count()`: leftmost non-overlapping occurrences;
the empty pattern matches once at every character boundary. -/
def countOcc (s pat : List Char) : Nat :=
  if pat.isEmpty then s.length + 1 else scanCount pat s 0

/-- Leftmost non-overlapping scan replacing occurrences of `pat` by `repl`,
for nonempty `pat`; `skip` as in `scanCount`. -/
def scanReplace (pat repl : List Char) : List Char → Nat → List Char
  | [], _ => []
  | c :: cs, skip =>
    if skip > 0 then scanReplace pat repl cs (skip - 1)
    else if pat.isPrefixOf (c :: cs) then repl ++ scanReplace pat repl cs (pat.length - 1)
    else c :: scanReplace pat repl cs 0

/-- Rust `str::replace`: replace every leftmost non-overlapping occurrence
of `pat` by `repl`; the empty pattern is replaced at every character
boundary. -/
def rustReplace (s pat repl : List Char) : List Char :=
  if pat.isEmpty then repl ++ (s.map (fun c => c :: repl)).flatten
  else scanReplace pat repl s 0

def countMatchesStr (s pat : String) : Nat := countOcc s.data pat.data

def rustReplaceStr (s pat repl : String) : String :=
  String.mk (rustReplace s.data pat.data repl.data)

/-! ### Line-ending normalization (shell module) -/

/-- Rewrite every CR LF pair to a lone LF. -/
def normCRLF : List Char → List Char
  | [] => []
  | [c] => [c]
  | c :: d :: rest =>
    if c = '\r' ∧ d = '\n' then '\n' :: normCRLF rest
    else c :: normCRLF (d :: rest)

/-- Modelled from the spec: `normalize_line_endings` lives in the `shell`
module, which is not under src/. The spec says the write operation
"normalizes line endings for the host platform"; on a Unix host this is
modelled as rewriting CR LF to LF. -/
def normalizeLineEndings (s : String) : String := String.mk (normCRLF s.data)

/-- Rust `str::ends_with('\n')` for a single character. -/
def endsWithChar (s : String) (c : Char) : Bool := s.data.getLast? == some c

/-! ### The text-editing engine state -/

/-- The state the text-editor operations touch for one target path: the
file's content on disk (`none` when the path does not exist) and the undo
stack `file_history[path]` (most recent entry last, as in the source's
`Vec<String>`). -/
structure EditorState where
  file : Option String
  history : List String
deriving DecidableEq, Repr

/-- `save_file_history` (mod.rs 1396-1406): read the current content (the
empty string when the path does not exist) and push it onto the path's
history stack. -/
def saveFileHistory (st : EditorState) : EditorState :=
  { st with history := st.history ++ [st.file.getD ""] }

/-- `text_editor_write` (mod.rs 1099-1138): normalize line endings, append
a trailing newline when absent, and overwrite the file unconditionally.
Note the source pushes no history entry for this operation. -/
def textEditorWrite (st : EditorState) (fileText : String) :
    EditorState × Except ToolError Unit :=
  let normalized := normalizeLineEndings fileText
  let normalized :=
    if endsWithChar normalized '\n' then normalized else normalized ++ "\n"
  ({ st with file := some normalized }, .ok ())

/-- The literal string-replacement path of `text_editor_replace`
(mod.rs 1190-1210): `old_str` must occur exactly once; on a unique match,
push history, substitute, normalize and write. -/
def replaceLiteral (st : EditorState) (content oldStr newStr : String) :
    EditorState × Except ToolError Unit :=
  if countMatchesStr content oldStr > 1 then
    (st, .error (.InvalidParameters
      "'old_str' must appear exactly once in the file, but it appears multiple times"))
  else if countMatchesStr content oldStr = 0 then
    (st, .error (.InvalidParameters
      "'old_str' must appear exactly once in the file, but it does not appear in the file. Make sure the string exactly matches existing file content, including whitespace!"))
  else
    let st1 := saveFileHistory st
    ({ st1 with
        file := some (normalizeLineEndings (rustReplaceStr content oldStr newStr)) },
      .ok ())

/-- `text_editor_replace` (mod.rs 1140-1264). The optional Edit Delegate
(`editor_model.edit_code`, an external capability) is a function from
(full content, old fragment, new fragment) to either the updated content
or an error. When configured, the source pushes history, calls the
delegate, and on delegate failure falls through to the literal path. -/
def textEditorReplace
    (delegate : Option (String → String → String → Except String String))
    (path : String) (st : EditorState) (oldStr newStr : String) :
    EditorState × Except ToolError Unit :=
  match st.file with
  | none =>
    (st, .error (.InvalidParameters
      ("File '" ++ path ++ "' does not exist, you can write a new file with the `write` command")))
  | some content =>
    match delegate with
    | some ed =>
      let st1 := saveFileHistory st
      match ed content oldStr newStr with
      | .ok updated =>
        ({ st1 with file := some (normalizeLineEndings updated) }, .ok ())
      | .error _ => replaceLiteral st1 content oldStr newStr
    | none => replaceLiteral st content oldStr newStr

/-- The line-rebuilding loop of `text_editor_insert` (mod.rs 1299-1313):
walk the existing lines, emitting the new text just before the line whose
index equals `insertLine`, then append the new text when inserting at the
end. -/
def buildInsertAux (insertLine : Nat) (newStr : String) :
    Nat → List String → List String
  | _, [] => []
  | i, line :: rest =>
    (if i = insertLine then [newStr, line] else [line]) ++
      buildInsertAux insertLine newStr (i + 1) rest

def buildInsert (lines : List String) (insertLine : Nat) (newStr : String) :
    List String :=
  buildInsertAux insertLine newStr 0 lines ++
    (if insertLine = lines.length then [newStr] else [])

/-- `text_editor_insert` (mod.rs 1266-1373): requires the file to exist,
pushes history (before the range validation, as the source does), rejects
`insert_line` beyond the line count, otherwise splices the new text in,
normalizes, and guarantees a trailing newline. -/
def textEditorInsert (path : String) (st : EditorState) (insertLine : Nat)
    (newStr : String) : EditorState × Except ToolError Unit :=
  match st.file with
  | none =>
    (st, .error (.InvalidParameters
      ("File '" ++ path ++ "' does not exist, you can write a new file with the `write` command")))
  | some content =>
    let st1 := saveFileHistory st
    let lines := rustLinesStr content
    let totalLines := lines.length
    if insertLine > totalLines then
      (st1, .error (.InvalidParameters
        ("Insert line " ++ toString insertLine ++
          " is beyond the end of the file (total lines: " ++ toString totalLines ++
          "). Use 0 to insert at the beginning or " ++ toString totalLines ++
          " to insert at the end.")))
    else
      let newLines := buildInsert lines insertLine newStr
      let newContent := joinLines newLines
      let normalized := normalizeLineEndings newContent
      let finalContent :=
        if endsWithChar normalized '\n' then normalized else normalized ++ "\n"
      ({ st1 with file := some finalContent }, .ok ())

/-- `text_editor_undo` (mod.rs 1375-1394): pop the most recent history
entry for the path and write it back verbatim; fail with
`InvalidParameters` when the stack is empty or absent. -/
def textEditorUndo (st : EditorState) : EditorState × Except ToolError Unit :=
  match st.history.getLast? with
  | some prev => ({ file := some prev, history := st.history.dropLast }, .ok ())
  | none => (st, .error (.InvalidParameters "No edit history available to undo"))

/-! ### Output Governor: `process_shell_output` -/

/-- The result of shaping one shell output blob: the machine-facing view,
the human-facing view, and the content of the side-spill file when one is
created. -/
structure ShellOutputViews where
  finalOutput : String
  userOutput : String
  sideFile : Option String
deriving DecidableEq, Repr

/-- `process_shell_output` (mod.rs 598-635), with the temporary file path
supplied as a parameter and its creation assumed to succeed: when the blob
has more than 100 lines, the entire original text is spilled to the side
file, the machine view names the total line count and the side file's path
before the last-100-lines excerpt, and the human view is the marker
followed by the excerpt; otherwise both views are the original text. -/
def processShellOutput (tmpPath : String) (outputStr : String) :
    ShellOutputViews :=
  let lines := rustLinesStr outputStr
  let lineCount := lines.length
  let last100 := joinLines (lines.drop (lines.length - 100))
  let finalOutput :=
    if lineCount > 100 then
      "private note: output was " ++ toString lineCount ++
        " lines and we are only showing the most recent lines, remainder of lines in " ++
        tmpPath ++
        " do not show tmp file to user, that file can be searched if extra context needed to fulfill request. truncated output: \n" ++
        last100
    else outputStr
  let userOutput := if lineCount > 100 then "... \n" ++ last100 else outputStr
  { finalOutput := finalOutput
    userOutput := userOutput
    sideFile := if lineCount > 100 then some outputStr else none }

/-! ### `text_editor_view` range validation -/

/-- The numbered rendering of the selected lines (mod.rs 1044-1054). -/
def viewRender (lines : List String) (startIdx endIdx : Nat) : String :=
  if lines.length = 0 then ""
  else
    joinLines
      (((lines.drop startIdx).take (endIdx - startIdx)).enum.map
        (fun p => toString (startIdx + p.1 + 1) ++ ": " ++ p.2))

/-- The view-range handling of `text_editor_view` (mod.rs 1011-1054),
applied to the file content after the size ceilings have passed. The
start value is the source's `usize`; the end value is an `i64`, with `-1`
meaning end of file and any other value cast to `usize` with wrap-around
before clamping to the line count. -/
def textEditorViewRange (content : String) (viewRange : Option (Nat × Int)) :
    Except ToolError String :=
  let lines := rustLinesStr content
  let totalLines := lines.length
  match viewRange with
  | some (startLine, endLine) =>
    let startIdx := if startLine > 0 then startLine - 1 else 0
    let endIdx :=
      if endLine = -1 then totalLines
      else min (endLine % (2 ^ 64 : Int)).toNat totalLines
    if startIdx ≥ totalLines then
      .error (.InvalidParameters
        ("Start line " ++ toString startLine ++
          " is beyond the end of the file (total lines: " ++ toString totalLines ++ ")"))
    else if startIdx ≥ endIdx then
      .error (.InvalidParameters
        ("Start line " ++ toString startLine ++ " must be less than end line " ++
          toString endLine))
    else .ok (viewRender lines startIdx endIdx)
  | none => .ok (viewRender lines 0 totalLines)

/-! ### The pre-spawn Access Gate scan of `bash` -/

/-- Rust `str::starts_with('-')`. -/
def startsWithDash (s : String) : Bool := s.data.head? == some '-'

/-- The body of the loop at mod.rs 671-688: walk the argument tokens;
skip flags and tokens that name no existing path; abort with an
`ExecutionError` naming the first token the gate matches. `pathExists`
models `Path::exists` and `isIgnoredPath` models
`DeveloperRouter::is_ignored`. -/
def scanArgs (pathExists isIgnoredPath : String → Bool) :
    List String → Except ToolError Unit
  | [] => .ok ()
  | arg :: rest =>
    if startsWithDash arg then scanArgs pathExists isIgnoredPath rest
    else if ¬ pathExists arg then scanArgs pathExists isIgnoredPath rest
    else if isIgnoredPath arg then
      .error (.ExecutionError
        ("The command attempts to access '" ++ arg ++
          "' which is restricted by .gooseignore"))
    else scanArgs pathExists isIgnoredPath rest

/-- The pre-spawn prefix of `bash` (mod.rs 669-688): tokenize the command
on whitespace and scan `cmd_parts[1..]`. In Rust, taking the slice
`&cmd_parts[1..]` of an empty vector panics ("range start index 1 out of
range"); `none` models that panic. A `some (.error e)` result is the early
return before any child process is spawned; `some (.ok ())` means the scan
passed and `bash` goes on to spawn the child. -/
def bashGateScan (pathExists isIgnoredPath : String → Bool) (command : String) :
    Option (Except ToolError Unit) :=
  let cmdParts := splitWs command
  if cmdParts.length < 1 then none
  else some (scanArgs pathExists isIgnoredPath (cmdParts.drop 1))

/-! ### Path Resolver: `resolve_path` -/

/-- `resolve_path` (mod.rs 637-653). The helpers `expand_path` and
`is_absolute_path` live in the `shell` module, which is not under src/;
they are taken as parameters. `cwd.join(path)` on a Unix host, with the
joined path relative (the only case in which the suggestion is used), is
the current directory, a separator, and the path. -/
def resolvePath (isAbs : String → Bool) (expand : String → String)
    (cwd pathStr : String) : Except ToolError String :=
  let expanded := expand pathStr
  let suggestion := cwd ++ "/" ++ expanded
  if isAbs expanded then .ok expanded
  else
    .error (.InvalidParameters
      ("The path " ++ pathStr ++ " is not an absolute path, did you possibly mean " ++
        suggestion ++ "?"))

/-! ### Access Gate construction (`DeveloperRouter::new`, mod.rs 524-572) -/

/-- The three default rules installed when no ignore file is found. -/
def defaultIgnorePatterns : List String := ["**/.env", "**/.env.*", "**/secrets.*"]

/-- The ignore-rule source selection of `DeveloperRouter::new`
(mod.rs 524-572), with each potential rule file given as `none` (absent)
or `some` list of its patterns: global `.gooseignore` rules are added when
that file exists; the local `.gooseignore` is added when it exists, and
only otherwise is `.gitignore` consulted as fallback; the three default
rules are installed exactly when none of the three files contributed. -/
def buildIgnorePatterns (globalFile localFile gitignoreFile : Option (List String)) :
    List String :=
  let pats1 := match globalFile with | some g => g | none => []
  let hasIgnoreFile1 := globalFile.isSome
  let result :=
    match localFile with
    | some l => (pats1 ++ l, true)
    | none =>
      match gitignoreFile with
      | some gi => (pats1 ++ gi, true)
      | none => (pats1, hasIgnoreFile1)
  if result.2 then result.1 else result.1 ++ defaultIgnorePatterns

/-- `DeveloperRouter::is_ignored` over the compiled rule set, with the
glob-matching of the external `ignore` crate abstracted as a predicate
from pattern and path to a Boolean: a path is ignored when some installed
pattern matches it. -/
def isIgnoredBy (mat : String → String → Bool) (pats : List String)
    (path : String) : Bool :=
  pats.any (fun p => mat p path)

/-! ### Lemmas about the line-splitting primitives -/

theorem mem_of_getLast?_eq {α : Type} {l : List α} {a : α}
    (h : l.getLast? = some a) : a ∈ l := by
  obtain ⟨hh, rfl⟩ := List.mem_getLast?_eq_getLast (x := a) h
  exact List.getLast_mem hh

theorem splitNlAux_append (a : List Char) (h : '\n' ∉ a) :
    ∀ (rest acc : List Char),
      splitNlAux (a ++ rest) acc = splitNlAux rest (a.reverse ++ acc) := by
  induction a with
  | nil => intro rest acc; simp
  | cons c cs ih =>
    intro rest acc
    have hc : c ≠ '\n' := fun hh => h (hh ▸ List.mem_cons_self c cs)
    have hcs : '\n' ∉ cs := fun hm => h (List.mem_cons_of_mem c hm)
    simp only [List.cons_append, splitNlAux, if_neg hc, List.append_eq]
    rw [ih hcs rest (c :: acc)]
    simp

theorem splitNlC_nonl (a : List Char) (h : '\n' ∉ a) : splitNlC a = [a] := by
  have h0 := splitNlAux_append a h [] []
  simpa [splitNlC, splitNlAux] using h0

theorem splitNlC_append (a rest : List Char) (h : '\n' ∉ a) :
    splitNlC (a ++ '\n' :: rest) = a :: splitNlC rest := by
  unfold splitNlC
  rw [splitNlAux_append a h ('\n' :: rest) []]
  simp [splitNlAux]

theorem splitNlC_join (ls : List (List Char)) (h : ∀ l ∈ ls, '\n' ∉ l)
    (hne : ls ≠ []) : splitNlC (joinNlC ls) = ls := by
  induction ls with
  | nil => cases hne rfl
  | cons l ls ih =>
    cases ls with
    | nil => simpa [joinNlC] using splitNlC_nonl l (h l (by simp))
    | cons l2 ls2 =>
      have h1 : joinNlC (l :: l2 :: ls2) = l ++ '\n' :: joinNlC (l2 :: ls2) := rfl
      rw [h1, splitNlC_append l _ (h l (by simp))]
      rw [ih (fun x hx => h x (by simp [hx])) (by simp)]

theorem joinNlC_concat_empty (ls : List (List Char)) (hne : ls ≠ []) :
    joinNlC (ls ++ [[]]) = joinNlC ls ++ ['\n'] := by
  induction ls with
  | nil => cases hne rfl
  | cons l ls ih =>
    cases ls with
    | nil => simp [joinNlC]
    | cons l2 ls2 =>
      have h1 : joinNlC ((l :: l2 :: ls2) ++ [[]]) =
          l ++ '\n' :: joinNlC ((l2 :: ls2) ++ [[]]) := rfl
      rw [h1, ih (by simp)]
      simp [joinNlC]

theorem mem_stripCRC {p : List Char} {x : Char} (hx : x ∈ stripCRC p) : x ∈ p := by
  unfold stripCRC at hx
  split at hx
  · exact List.mem_of_mem_dropLast hx
  · exact hx

theorem stripCRC_eq_self {p : List Char} (h : '\r' ∉ p) : stripCRC p = p := by
  unfold stripCRC
  split
  · next heq => exact absurd (mem_of_getLast?_eq heq) h
  · rfl

theorem rustLinesC_join (ls : List (List Char)) (hnl : ∀ l ∈ ls, '\n' ∉ l)
    (hcr : ∀ l ∈ ls, stripCRC l = l) (hne : ls ≠ []) :
    rustLinesC (joinNlC ls ++ ['\n']) = ls := by
  have hsplit : splitNlC (joinNlC ls ++ ['\n']) = ls ++ [[]] := by
    rw [← joinNlC_concat_empty ls hne]
    exact splitNlC_join (ls ++ [[]])
      (by intro l hl
          rcases List.mem_append.mp hl with h1 | h1
          · exact hnl l h1
          · simp at h1; simp [h1]) (by simp)
  simp only [rustLinesC, hsplit, List.getLast?_concat, List.dropLast_concat]
  have hmap : ls.map stripCRC = ls.map id := List.map_congr_left (by
    intro a ha; rw [hcr a ha]; rfl)
  rw [hmap, List.map_id]

theorem mem_splitNlAux :
    ∀ (s acc l : List Char), l ∈ splitNlAux s acc → ∀ x ∈ l, x ∈ s ∨ x ∈ acc := by
  intro s
  induction s with
  | nil =>
    intro acc l hl x hx
    simp [splitNlAux] at hl
    subst hl
    right
    simpa using hx
  | cons c cs ih =>
    intro acc l hl x hx
    by_cases hc : c = '\n'
    · subst hc
      simp only [splitNlAux, if_pos rfl] at hl
      rcases List.mem_cons.mp hl with h1 | h1
      · subst h1
        right
        simpa using hx
      · rcases ih [] l h1 x hx with h2 | h2
        · exact Or.inl (List.mem_cons_of_mem _ h2)
        · simp at h2
    · simp only [splitNlAux, if_neg hc] at hl
      rcases ih (c :: acc) l hl x hx with h2 | h2
      · exact Or.inl (List.mem_cons_of_mem _ h2)
      · rcases List.mem_cons.mp h2 with h3 | h3
        · exact Or.inl (h3 ▸ List.mem_cons_self _ _)
        · exact Or.inr h3

theorem nonl_mem_splitNlAux :
    ∀ (s acc l : List Char), '\n' ∉ acc → l ∈ splitNlAux s acc → '\n' ∉ l := by
  intro s
  induction s with
  | nil =>
    intro acc l hacc hl
    simp [splitNlAux] at hl
    subst hl
    simpa using hacc
  | cons c cs ih =>
    intro acc l hacc hl
    by_cases hc : c = '\n'
    · subst hc
      simp only [splitNlAux, if_pos rfl] at hl
      rcases List.mem_cons.mp hl with h1 | h1
      · subst h1; simpa using hacc
      · exact ih [] l (by simp) h1
    · simp only [splitNlAux, if_neg hc] at hl
      exact ih (c :: acc) l (by
        intro hm
        rcases List.mem_cons.mp hm with h3 | h3
        · exact hc h3.symm
        · exact hacc h3) hl

theorem mem_rustLinesC {s l : List Char} (hl : l ∈ rustLinesC s) :
    ∃ p ∈ splitNlC s, ∀ x ∈ l, x ∈ p := by
  simp only [rustLinesC] at hl
  split at hl
  · rcases List.mem_map.mp hl with ⟨p, hp, rfl⟩
    exact ⟨p, List.mem_of_mem_dropLast hp, fun x hx => mem_stripCRC hx⟩
  · next heq =>
    rcases List.mem_append.mp hl with h1 | h1
    · rcases List.mem_map.mp h1 with ⟨p, hp, rfl⟩
      exact ⟨p, List.mem_of_mem_dropLast hp, fun x hx => mem_stripCRC hx⟩
    · simp at h1
      subst h1
      exact ⟨l, mem_of_getLast?_eq heq, fun x hx => hx⟩
  · rcases List.mem_map.mp hl with ⟨p, hp, rfl⟩
    exact ⟨p, List.mem_of_mem_dropLast hp, fun x hx => mem_stripCRC hx⟩

theorem rustLinesC_nonl {s l : List Char} (hl : l ∈ rustLinesC s) : '\n' ∉ l := by
  obtain ⟨p, hp, hsub⟩ := mem_rustLinesC hl
  intro hx
  exact nonl_mem_splitNlAux s [] p (by simp) hp (hsub _ hx)

theorem rustLinesC_subset {s l : List Char} (hl : l ∈ rustLinesC s) :
    ∀ x ∈ l, x ∈ s := by
  obtain ⟨p, hp, hsub⟩ := mem_rustLinesC hl
  intro x hx
  rcases mem_splitNlAux s [] p hp x (hsub x hx) with h | h
  · exact h
  · simp at h

/-- The last line of a `slice::join("\n")` is the last part, provided that
part is nonempty. -/
theorem joinNlC_getLast? (ls : List (List Char)) (l : List Char)
    (hlast : ls.getLast? = some l) (hne : l ≠ []) :
    (joinNlC ls).getLast? = l.getLast? := by
  induction ls with
  | nil => simp at hlast
  | cons a as ih =>
    cases as with
    | nil =>
      simp at hlast
      subst hlast
      rfl
    | cons b bs =>
      have h1 : joinNlC (a :: b :: bs) = a ++ '\n' :: joinNlC (b :: bs) := rfl
      have h2 : (b :: bs).getLast? = some l := by
        rw [← hlast]
        exact (List.getLast?_cons_cons ..).symm
      rw [h1, List.getLast?_append_of_ne_nil a (by simp)]
      have h3 := ih h2
      have hnn : joinNlC (b :: bs) ≠ [] := by
        intro hj
        rw [hj] at h3
        have h4 : l.getLast? = none := h3.symm
        exact hne (List.getLast?_eq_none_iff.mp h4)
      cases hj : joinNlC (b :: bs) with
      | nil => exact absurd hj hnn
      | cons x xs =>
        rw [hj] at h3
        rw [List.getLast?_cons_cons]
        exact h3

theorem normCRLF_eq_self : ∀ (s : List Char), '\r' ∉ s → normCRLF s = s
  | [], _ => rfl
  | [_], _ => rfl
  | c :: d :: rest, h => by
    have hc : c ≠ '\r' := fun hh => h (hh ▸ List.mem_cons_self ..)
    have hrest : '\r' ∉ d :: rest := fun hm => h (List.mem_cons_of_mem c hm)
    simp only [normCRLF]
    rw [if_neg (fun hand => hc hand.1)]
    rw [normCRLF_eq_self (d :: rest) hrest]

/-- Every character of a `slice::join("\n")` is a character of some part
or the separator. -/
theorem mem_joinNlC : ∀ (ls : List (List Char)) (x : Char), x ∈ joinNlC ls →
    (∃ l ∈ ls, x ∈ l) ∨ x = '\n'
  | [], _, hx => by simp [joinNlC] at hx
  | [l], x, hx => by
    exact Or.inl ⟨l, by simp, hx⟩
  | l :: l2 :: ls, x, hx => by
    have h1 : joinNlC (l :: l2 :: ls) = l ++ '\n' :: joinNlC (l2 :: ls) := rfl
    rw [h1] at hx
    rcases List.mem_append.mp hx with h2 | h2
    · exact Or.inl ⟨l, by simp, h2⟩
    · rcases List.mem_cons.mp h2 with h3 | h3
      · exact Or.inr h3
      · rcases mem_joinNlC (l2 :: ls) x h3 with ⟨p, hp, hxp⟩ | h4
        · exact Or.inl ⟨p, List.mem_cons_of_mem _ hp, hxp⟩
        · exact Or.inr h4

/-! ### Lemmas about the occurrence scan -/

theorem isPrefixOf_eq_append : ∀ (p s : List Char), p.isPrefixOf s = true →
    p ++ s.drop p.length = s
  | [], s, _ => by simp
  | a :: p, [], h => by simp [List.isPrefixOf] at h
  | a :: p, b :: s, h => by
    simp only [List.isPrefixOf, Bool.and_eq_true, beq_iff_eq] at h
    obtain ⟨rfl, h2⟩ := h
    simp only [List.cons_append, List.length_cons, List.drop_succ_cons]
    rw [isPrefixOf_eq_append p s h2]

theorem scanCount_skip (pat : List Char) :
    ∀ (s : List Char) (skip : Nat), scanCount pat s skip = scanCount pat (s.drop skip) 0
  | [], skip => by simp [scanCount]
  | c :: cs, 0 => by rw [List.drop_zero]
  | c :: cs, skip + 1 => by
    simp only [scanCount, Nat.succ_sub_one, List.drop_succ_cons]
    rw [if_pos (Nat.succ_pos skip)]
    exact scanCount_skip pat cs skip

theorem scanReplace_skip (pat repl : List Char) :
    ∀ (s : List Char) (skip : Nat),
      scanReplace pat repl s skip = scanReplace pat repl (s.drop skip) 0
  | [], skip => by simp [scanReplace]
  | c :: cs, 0 => by rw [List.drop_zero]
  | c :: cs, skip + 1 => by
    simp only [scanReplace, Nat.succ_sub_one, List.drop_succ_cons]
    rw [if_pos (Nat.succ_pos skip)]
    exact scanReplace_skip pat repl cs skip

theorem scanReplace_of_count_zero (pat repl : List Char) :
    ∀ (s : List Char), scanCount pat s 0 = 0 → scanReplace pat repl s 0 = s := by
  intro s
  induction s with
  | nil => intro _; rfl
  | cons c cs ih =>
    intro h
    by_cases hp : pat.isPrefixOf (c :: cs)
    · simp [scanCount, hp] at h
    · simp only [scanCount, if_neg (show ¬ (0 : Nat) > 0 by omega), if_neg hp] at h
      simp only [scanReplace, if_neg (show ¬ (0 : Nat) > 0 by omega), if_neg hp]
      rw [ih h]

/-- A character list in which a nonempty pattern occurs exactly once (by
the leftmost non-overlapping scan) decomposes around that occurrence, and
the scan-based replacement replaces exactly it. -/
theorem scan_count_one (pat repl : List Char) (hpat : pat ≠ []) :
    ∀ (s : List Char), scanCount pat s 0 = 1 →
      ∃ a b, s = a ++ pat ++ b ∧ scanReplace pat repl s 0 = a ++ repl ++ b := by
  intro s
  induction s with
  | nil => intro h; simp [scanCount] at h
  | cons c cs ih =>
    intro h
    by_cases hp : pat.isPrefixOf (c :: cs)
    · have hcount : scanCount pat cs (pat.length - 1) = 0 := by
        simp [scanCount, hp] at h
        omega
      have hdrop : (c :: cs).drop pat.length = cs.drop (pat.length - 1) := by
        cases pat with
        | nil => exact absurd rfl hpat
        | cons p ps => simp
      refine ⟨[], (c :: cs).drop pat.length, ?_, ?_⟩
      · simpa using (isPrefixOf_eq_append pat (c :: cs) hp).symm
      · simp only [scanReplace, if_neg (show ¬ (0 : Nat) > 0 by omega), if_pos hp]
        rw [scanCount_skip pat cs (pat.length - 1)] at hcount
        rw [scanReplace_skip pat repl cs (pat.length - 1),
          scanReplace_of_count_zero pat repl _ hcount, hdrop]
        simp
    · simp only [scanCount, if_neg (show ¬ (0 : Nat) > 0 by omega), if_neg hp] at h
      obtain ⟨a, b, hab, hrep⟩ := ih h
      refine ⟨c :: a, b, by simp [hab], ?_⟩
      simp only [scanReplace, if_neg (show ¬ (0 : Nat) > 0 by omega), if_neg hp]
      rw [hrep]
      simp

/-- Rust semantics: when `old` occurs exactly once in `s`, the string
decomposes as `a ++ old ++ b` and `str::replace` yields `a ++ repl ++ b`. -/
theorem countOcc_one_decomposition (s pat repl : List Char)
    (h : countOcc s pat = 1) :
    ∃ a b, s = a ++ pat ++ b ∧ rustReplace s pat repl = a ++ repl ++ b := by
  by_cases hpat : pat.isEmpty
  · have hs : s = [] := by
      simp [countOcc, hpat] at h
      exact h
    subst hs
    refine ⟨[], [], by simp [List.isEmpty_iff.mp hpat], ?_⟩
    simp [rustReplace, hpat]
  · simp only [countOcc, hpat, Bool.false_eq_true, if_neg] at h
    have := scan_count_one pat repl (by simpa using hpat) s h
    simpa [rustReplace, hpat] using this

/-! ### Lemmas about the insert rebuild loop -/

theorem buildInsertAux_of_lt (n : Nat) (s : String) :
    ∀ (lines : List String) (i : Nat), n < i → buildInsertAux n s i lines = lines
  | [], _, _ => rfl
  | l :: rest, i, h => by
    simp only [buildInsertAux, if_neg (by omega : ¬ i = n)]
    rw [buildInsertAux_of_lt n s rest (i + 1) (by omega)]
    simp

theorem buildInsertAux_of_le (n : Nat) (s : String) :
    ∀ (lines : List String) (i : Nat), i + lines.length ≤ n →
      buildInsertAux n s i lines = lines
  | [], _, _ => rfl
  | l :: rest, i, h => by
    have hlen : rest.length + 1 = (l :: rest).length := by simp
    have hin : ¬ i = n := by simp at h; omega
    simp only [buildInsertAux, if_neg hin]
    rw [buildInsertAux_of_le n s rest (i + 1) (by simp at h; omega)]
    simp

theorem buildInsertAux_mid (n : Nat) (s : String) :
    ∀ (lines : List String) (i : Nat), i ≤ n → n - i < lines.length →
      buildInsertAux n s i lines = lines.take (n - i) ++ s :: lines.drop (n - i)
  | [], i, hle, hlt => by simp at hlt
  | l :: rest, i, hle, hlt => by
    by_cases hin : i = n
    · subst hin
      simp only [buildInsertAux, if_pos rfl, Nat.sub_self, List.take_zero,
        List.drop_zero]
      rw [buildInsertAux_of_lt i s rest (i + 1) (by omega)]
      simp
    · simp only [buildInsertAux, if_neg hin]
      have hni : n - i = (n - (i + 1)) + 1 := by omega
      rw [buildInsertAux_mid n s rest (i + 1) (by omega) (by simp at hlt; omega)]
      rw [hni]
      simp

theorem buildInsert_eq (lines : List String) (n : Nat) (s : String)
    (h : n ≤ lines.length) :
    buildInsert lines n s = lines.take n ++ s :: lines.drop n := by
  unfold buildInsert
  rcases Nat.lt_or_ge n lines.length with hlt | hge
  · rw [buildInsertAux_mid n s lines 0 (by omega) (by simpa using hlt)]
    rw [if_neg (by omega : ¬ n = lines.length)]
    simp
  · have heq : n = lines.length := by omega
    subst heq
    rw [buildInsertAux_of_le lines.length s lines 0 (by simp)]
    rw [if_pos rfl]
    simp [List.take_length, List.drop_length]

/-! ### Lemmas about whitespace tokenization -/

theorem splitWsAux_ne_nil : ∀ (s acc : List Char), acc ≠ [] → splitWsAux s acc ≠ []
  | [], acc, h => by simp [splitWsAux, h]
  | c :: cs, acc, h => by
    by_cases hw : c.isWhitespace
    · simp only [splitWsAux, if_pos hw, if_neg h]
      simp
    · simp only [splitWsAux, if_neg hw]
      exact splitWsAux_ne_nil cs (c :: acc) (by simp)

theorem splitWsAux_nil_iff : ∀ (s : List Char),
    splitWsAux s [] = [] ↔ ∀ c ∈ s, c.isWhitespace = true
  | [] => by simp [splitWsAux]
  | c :: cs => by
    by_cases hw : c.isWhitespace
    · rw [show splitWsAux (c :: cs) [] = splitWsAux cs [] from by
        simp [splitWsAux, hw]]
      rw [splitWsAux_nil_iff cs]
      constructor
      · intro h x hx
        rcases List.mem_cons.mp hx with h1 | h1
        · exact h1 ▸ hw
        · exact h x h1
      · intro h x hx
        exact h x (List.mem_cons_of_mem _ hx)
    · simp only [splitWsAux, if_neg hw]
      constructor
      · intro h
        exact absurd h (splitWsAux_ne_nil cs [c] (by simp))
      · intro h
        exact absurd (h c (by simp)) hw

/-! ### Lemma about the Access Gate argument scan -/

theorem scanArgs_restricted (ex ig : String → Bool) :
    ∀ (args : List String) (a : String), a ∈ args → startsWithDash a = false →
      ex a = true → ig a = true →
      ∃ b ∈ args, startsWithDash b = false ∧ ex b = true ∧ ig b = true ∧
        scanArgs ex ig args = .error (.ExecutionError
          ("The command attempts to access '" ++ b ++ "' which is restricted by .gooseignore"))
  | [], a, ha, _, _, _ => absurd ha (List.not_mem_nil a)
  | arg :: rest, a, ha, had, hae, hai => by
    by_cases hd : startsWithDash arg = true
    · have ha' : a ∈ rest := by
        rcases List.mem_cons.mp ha with h1 | h1
        · rw [h1] at had
          rw [had] at hd
          cases hd
        · exact h1
      obtain ⟨b, hb, hbp⟩ := scanArgs_restricted ex ig rest a ha' had hae hai
      exact ⟨b, List.mem_cons_of_mem _ hb, by simpa [scanArgs, hd] using hbp⟩
    · have hd' : startsWithDash arg = false := by simpa using hd
      by_cases hex : ex arg = true
      · by_cases hig2 : ig arg = true
        · refine ⟨arg, List.mem_cons_self .., hd', hex, hig2, ?_⟩
          simp [scanArgs, hd', hex, hig2]
        · have ha' : a ∈ rest := by
            rcases List.mem_cons.mp ha with h1 | h1
            · exact absurd (h1 ▸ hai) hig2
            · exact h1
          obtain ⟨b, hb, hbp⟩ := scanArgs_restricted ex ig rest a ha' had hae hai
          refine ⟨b, List.mem_cons_of_mem _ hb, ?_⟩
          simpa [scanArgs, hd', hex, hig2] using hbp
      · have ha' : a ∈ rest := by
          rcases List.mem_cons.mp ha with h1 | h1
          · exact absurd (h1 ▸ hae) hex
          · exact h1
        obtain ⟨b, hb, hbp⟩ := scanArgs_restricted ex ig rest a ha' had hae hai
        refine ⟨b, List.mem_cons_of_mem _ hb, ?_⟩
        simpa [scanArgs, hd', hex] using hbp

/-! ### Claim theorems -/

/-- Claim C4 (confirmed): for every shell output blob with at most 100
lines, both the machine-facing and human-facing views equal the original
text exactly and no side file is created; with more than 100 lines, the
human-facing view is the truncation marker followed by exactly the last
100 lines, a side file holds the entire original text verbatim, and the
machine-facing view names the side file's path and the total line count
alongside the same excerpt. -/
theorem claim4_shell_output_views (tmpPath outputStr : String) :
    ((rustLinesStr outputStr).length ≤ 100 →
      (processShellOutput tmpPath outputStr).finalOutput = outputStr ∧
      (processShellOutput tmpPath outputStr).userOutput = outputStr ∧
      (processShellOutput tmpPath outputStr).sideFile = none) ∧
    ((rustLinesStr outputStr).length > 100 →
      (processShellOutput tmpPath outputStr).userOutput =
        "... \n" ++ joinLines ((rustLinesStr outputStr).drop
          ((rustLinesStr outputStr).length - 100)) ∧
      ((rustLinesStr outputStr).drop ((rustLinesStr outputStr).length - 100)).length
        = 100 ∧
      (processShellOutput tmpPath outputStr).sideFile = some outputStr ∧
      (processShellOutput tmpPath outputStr).finalOutput =
        "private note: output was " ++ toString (rustLinesStr outputStr).length ++
          " lines and we are only showing the most recent lines, remainder of lines in " ++
          tmpPath ++
          " do not show tmp file to user, that file can be searched if extra context needed to fulfill request. truncated output: \n" ++
          joinLines ((rustLinesStr outputStr).drop
            ((rustLinesStr outputStr).length - 100))) := by
  constructor
  · intro h
    have hn : ¬ (rustLinesStr outputStr).length > 100 := by omega
    refine ⟨?_, ?_, ?_⟩ <;> simp [processShellOutput, hn]
  · intro h
    refine ⟨?_, ?_, ?_, ?_⟩
    · simp [processShellOutput, h]
    · rw [List.length_drop]
      omega
    · simp [processShellOutput, h]
    · simp [processShellOutput, h]

set_option maxRecDepth 100000 in
/-- Claim C4 witness: the 150-line scenario, instantiating the theorem at a
blob of 150 numbered lines. -/
theorem claim4_shell_output_views_witness :
    (rustLinesStr (joinLines ((List.range 150).map
        (fun i => "Line " ++ toString (i + 1))))).length > 100 ∧
    (processShellOutput "/tmp/spill" (joinLines ((List.range 150).map
        (fun i => "Line " ++ toString (i + 1))))).sideFile =
      some (joinLines ((List.range 150).map (fun i => "Line " ++ toString (i + 1)))) := by
  refine ⟨by decide, ?_⟩
  exact ((claim4_shell_output_views "/tmp/spill" _).2 (by decide)).2.2.1

/-- Claim C5 (confirmed): whenever some whitespace token of the command
after the first does not start with the flag marker, names an existing
filesystem path and is matched by the ignore rule set, the `bash`
pre-spawn scan returns an `ExecutionError` naming a restricted path (the
first such token), so no child process is spawned. Existence of a path
(`Path::exists`) and the gate decision (`is_ignored`) are abstracted as
predicates. -/
theorem claim5_bash_gate_restricts (pathExists isIgnoredPath : String → Bool)
    (command arg : String) (hmem : arg ∈ (splitWs command).drop 1)
    (hdash : startsWithDash arg = false)
    (hex : pathExists arg = true) (hig : isIgnoredPath arg = true) :
    ∃ b ∈ (splitWs command).drop 1,
      startsWithDash b = false ∧ pathExists b = true ∧ isIgnoredPath b = true ∧
      bashGateScan pathExists isIgnoredPath command =
        some (.error (.ExecutionError
          ("The command attempts to access '" ++ b ++
            "' which is restricted by .gooseignore"))) := by
  have hlen : ¬ (splitWs command).length < 1 := by
    cases hsp : splitWs command with
    | nil =>
      rw [hsp] at hmem
      simp at hmem
    | cons x xs => simp
  obtain ⟨b, hb, hbd, hbe, hbi, hscan⟩ :=
    scanArgs_restricted pathExists isIgnoredPath ((splitWs command).drop 1) arg
      hmem hdash hex hig
  refine ⟨b, hb, hbd, hbe, hbi, ?_⟩
  unfold bashGateScan
  rw [if_neg hlen, hscan]

/-- Claim C5 witness: a concrete command whose second token is an existing,
gate-matched path. -/
theorem claim5_bash_gate_restricts_witness :
    bashGateScan (fun s => s == "/secret/file") (fun s => s == "/secret/file")
        "cat /secret/file" =
      some (.error (.ExecutionError
        "The command attempts to access '/secret/file' which is restricted by .gooseignore")) := by
  obtain ⟨b, hb, _, _, _, hscan⟩ :=
    claim5_bash_gate_restricts (fun s => s == "/secret/file")
      (fun s => s == "/secret/file") "cat /secret/file" "/secret/file"
      (by decide) (by decide) (by decide) (by decide)
  have hlist : (splitWs "cat /secret/file").drop 1 = ["/secret/file"] := by decide
  rw [hlist] at hb
  have hbeq : b = "/secret/file" := by simpa using hb
  rw [hbeq] at hscan
  exact hscan

/-- Claim C10 (confirmed): the `bash` pre-spawn scan panics (modelled as
`none`) exactly when whitespace tokenization of the command yields zero
tokens, which happens exactly when the command is empty or all whitespace;
the slice indexing `cmd_parts[1..]` is in bounds exactly when there is at
least one token. -/
theorem claim10_bash_empty_command_panics (pathExists isIgnoredPath : String → Bool)
    (command : String) :
    (bashGateScan pathExists isIgnoredPath command = none ↔
      (splitWs command).length = 0) ∧
    (bashGateScan pathExists isIgnoredPath command = none ↔
      ∀ c ∈ command.data, c.isWhitespace = true) := by
  have hiff : bashGateScan pathExists isIgnoredPath command = none ↔
      (splitWs command).length = 0 := by
    unfold bashGateScan
    by_cases h : (splitWs command).length < 1
    · simp only [if_pos h]
      constructor
      · intro _; omega
      · intro _; trivial
    · simp only [if_neg h]
      constructor
      · intro hc; cases hc
      · intro hc; omega
  have hws : (splitWs command).length = 0 ↔
      ∀ c ∈ command.data, c.isWhitespace = true := by
    rw [List.length_eq_zero]
    unfold splitWs
    rw [List.map_eq_nil_iff]
    exact splitWsAux_nil_iff command.data
  exact ⟨hiff, hiff.trans hws⟩

/-- Claim C10 witness: the scan on a whitespace-only command is the panic
case, and on a one-token command it is not. -/
theorem claim10_bash_empty_command_panics_witness :
    bashGateScan (fun _ => false) (fun _ => false) "   " = none ∧
    bashGateScan (fun _ => false) (fun _ => false) "ls" ≠ none := by
  constructor
  · exact (claim10_bash_empty_command_panics (fun _ => false) (fun _ => false)
      "   ").2.mpr (by decide)
  · intro hc
    have := (claim10_bash_empty_command_panics (fun _ => false) (fun _ => false)
      "ls").2.mp hc
    exact absurd (this 'l' (by decide)) (by decide)

/-- Claim C8 (confirmed): when a local `.gooseignore` exists, `.gitignore`
contributes no rules — the compiled pattern set is independent of the
`.gitignore` content, so a path matched only by patterns appearing solely
in `.gitignore` is not ignored; and when no `.gooseignore` (global or
local) and no `.gitignore` exists, exactly the three default rules are
installed. -/
theorem claim8_ignore_rule_sources (globalFile : Option (List String))
    (localPats : List String) (gitignoreFile gitignoreFile2 : Option (List String))
    (mat : String → String → Bool) (path : String) :
    (buildIgnorePatterns globalFile (some localPats) gitignoreFile =
      buildIgnorePatterns globalFile (some localPats) gitignoreFile2) ∧
    ((∀ p ∈ (match globalFile with | some g => g | none => []) ++ localPats,
        mat p path = false) →
      isIgnoredBy mat (buildIgnorePatterns globalFile (some localPats) gitignoreFile)
        path = false) ∧
    (buildIgnorePatterns none none none = defaultIgnorePatterns) := by
  refine ⟨rfl, ?_, rfl⟩
  intro hmatch
  have hall : ∀ p ∈ buildIgnorePatterns globalFile (some localPats) gitignoreFile,
      mat p path = false := by
    cases globalFile with
    | none =>
      intro p hp
      exact hmatch p (by simpa [buildIgnorePatterns] using hp)
    | some g =>
      intro p hp
      exact hmatch p (by simpa [buildIgnorePatterns] using hp)
  unfold isIgnoredBy
  rw [List.any_eq_false]
  intro x hx
  rw [hall x hx]
  simp

/-- Claim C8 witness: a configuration with a local rule file and a
`.gitignore` whose unique pattern matches the path; the path is not
ignored, and the empty configuration yields the three defaults. -/
theorem claim8_ignore_rule_sources_witness :
    isIgnoredBy (fun p s => p == s) (buildIgnorePatterns none (some ["*.log"])
      (some ["/work/data.txt"])) "/work/data.txt" = false ∧
    buildIgnorePatterns none none none = defaultIgnorePatterns := by
  refine ⟨?_, (claim8_ignore_rule_sources none ["*.log"] none none
    (fun p s => p == s) "/work/data.txt").2.2⟩
  exact (claim8_ignore_rule_sources none ["*.log"] (some ["/work/data.txt"]) none
    (fun p s => p == s) "/work/data.txt").2.1 (by decide)

/-- Claim C9 (confirmed): when the shorthand-expanded form of the raw path
is not absolute, `resolve_path` fails with an `InvalidParameters` error
whose message contains both the original path string and the
current-working-directory-joined path as the suggestion; when the expanded
form is absolute, it succeeds with that path. The `shell` module helpers
`expand_path` and `is_absolute_path` are not under src/ and are abstracted
as parameters. -/
theorem claim9_resolve_path (isAbs : String → Bool) (expand : String → String)
    (cwd pathStr : String) :
    (isAbs (expand pathStr) = true →
      resolvePath isAbs expand cwd pathStr = .ok (expand pathStr)) ∧
    (isAbs (expand pathStr) = false →
      ∃ msg, resolvePath isAbs expand cwd pathStr =
          .error (.InvalidParameters msg) ∧
        (∃ x y, msg = x ++ pathStr ++ y) ∧
        (∃ x y, msg = x ++ (cwd ++ "/" ++ expand pathStr) ++ y)) := by
  constructor
  · intro h
    simp [resolvePath, h]
  · intro h
    refine ⟨"The path " ++ pathStr ++
      " is not an absolute path, did you possibly mean " ++
      (cwd ++ "/" ++ expand pathStr) ++ "?", ?_, ?_, ?_⟩
    · simp [resolvePath, h]
    · refine ⟨"The path ",
        " is not an absolute path, did you possibly mean " ++
          (cwd ++ "/" ++ expand pathStr) ++ "?", ?_⟩
      apply String.ext
      simp [String.data_append, List.append_assoc]
    · refine ⟨"The path " ++ pathStr ++
        " is not an absolute path, did you possibly mean ", "?", ?_⟩
      apply String.ext
      simp [String.data_append, List.append_assoc]

/-- Claim C9 witness: a relative path under an expansion that leaves it
unchanged, and an absolute one. -/
theorem claim9_resolve_path_witness :
    resolvePath (fun s => s.data.head? == some '/') (fun s => s) "/home/dev" "/etc/hosts" =
      .ok "/etc/hosts" ∧
    ∃ msg, resolvePath (fun s => s.data.head? == some '/') (fun s => s)
        "/home/dev" "notes.txt" = .error (.InvalidParameters msg) ∧
      (∃ x y, msg = x ++ "notes.txt" ++ y) ∧
      (∃ x y, msg = x ++ ("/home/dev" ++ "/" ++ "notes.txt") ++ y) := by
  constructor
  · exact (claim9_resolve_path (fun s => s.data.head? == some '/') (fun s => s)
      "/home/dev" "/etc/hosts").1 (by decide)
  · exact (claim9_resolve_path (fun s => s.data.head? == some '/') (fun s => s)
      "/home/dev" "notes.txt").2 (by decide)

/-- Claim C1 counterexample: a successful `write` in the create case pushes
no history entry at all — the history is empty afterwards, not a single
entry holding the empty string, so the claim that every successful
mutating operation pushes exactly once is false. -/
theorem claim1_history_push_counterexample :
    (textEditorWrite ⟨none, []⟩ "hello").2 = .ok () ∧
    (textEditorWrite ⟨none, []⟩ "hello").1.file = some "hello\n" ∧
    (textEditorWrite ⟨none, []⟩ "hello").1.history = [] := by
  refine ⟨rfl, by decide, rfl⟩

/-- Claim C1 as amended: `replace` (without a delegate) pushes exactly one
history entry, holding the pre-mutation content, on success and nothing on
validation failure; `insert` pushes exactly one entry holding the
pre-mutation content, but does so even when the `insert_line` validation
fails; `write` never pushes an entry, in particular not in the create
case; and `replace` and `insert` on a missing file fail without touching
the state. -/
theorem claim1_history_push_discipline (st : EditorState)
    (path fileText oldStr newStr insStr : String) (insertLine : Nat) :
    ((textEditorWrite st fileText).1.history = st.history ∧
      (textEditorWrite st fileText).2 = .ok ()) ∧
    (∀ c, st.file = some c → countMatchesStr c oldStr = 1 →
      (textEditorReplace none path st oldStr newStr).1.history = st.history ++ [c] ∧
      (textEditorReplace none path st oldStr newStr).2 = .ok ()) ∧
    (∀ c, st.file = some c → countMatchesStr c oldStr ≠ 1 →
      (textEditorReplace none path st oldStr newStr).1 = st ∧
      ∃ m, (textEditorReplace none path st oldStr newStr).2 =
        .error (.InvalidParameters m)) ∧
    (∀ c, st.file = some c →
      (textEditorInsert path st insertLine insStr).1.history = st.history ++ [c]) ∧
    (st.file = none →
      (textEditorReplace none path st oldStr newStr).1 = st ∧
      (textEditorInsert path st insertLine insStr).1 = st) := by
  refine ⟨⟨rfl, rfl⟩, ?_, ?_, ?_, ?_⟩
  · intro c hc hcount
    have h1 : ¬ countMatchesStr c oldStr > 1 := by omega
    have h0 : ¬ countMatchesStr c oldStr = 0 := by omega
    simp [textEditorReplace, hc, replaceLiteral, h1, h0, saveFileHistory]
  · intro c hc hcount
    rcases Nat.lt_or_ge (countMatchesStr c oldStr) 1 with hlt | hge
    · have h0 : countMatchesStr c oldStr = 0 := by omega
      have h1 : ¬ countMatchesStr c oldStr > 1 := by omega
      refine ⟨by simp [textEditorReplace, hc, replaceLiteral, h1, h0], ?_⟩
      refine ⟨"'old_str' must appear exactly once in the file, but it does not appear in the file. Make sure the string exactly matches existing file content, including whitespace!", ?_⟩
      simp [textEditorReplace, hc, replaceLiteral, h1, h0]
    · have h1 : countMatchesStr c oldStr > 1 := by omega
      refine ⟨by simp [textEditorReplace, hc, replaceLiteral, h1], ?_⟩
      refine ⟨"'old_str' must appear exactly once in the file, but it appears multiple times", ?_⟩
      simp [textEditorReplace, hc, replaceLiteral, h1]
  · intro c hc
    by_cases hline : insertLine > (rustLinesStr c).length
    · simp [textEditorInsert, hc, hline, saveFileHistory]
    · simp [textEditorInsert, hc, hline, saveFileHistory]
  · intro hc
    exact ⟨by simp [textEditorReplace, hc], by simp [textEditorInsert, hc]⟩

/-- Claim C1 witness: a concrete replace pushes exactly the prior content;
a concrete insert whose line validation fails still pushes. -/
theorem claim1_history_push_discipline_witness :
    (textEditorReplace none "/tmp/f" ⟨some "ab\n", ["x"]⟩ "b" "c").1.history =
      ["x", "ab\n"] ∧
    (textEditorInsert "/tmp/f" ⟨some "ab\n", []⟩ 7 "z").1.history = ["ab\n"] ∧
    (textEditorInsert "/tmp/f" ⟨some "ab\n", []⟩ 7 "z").2 ≠ .ok () := by
  refine ⟨?_, ?_, by decide⟩
  · exact ((claim1_history_push_discipline ⟨some "ab\n", ["x"]⟩ "/tmp/f" "t" "b" "c"
      "z" 7).2.1 "ab\n" rfl (by decide)).1
  · exact (claim1_history_push_discipline ⟨some "ab\n", []⟩ "/tmp/f" "t" "b" "c"
      "z" 7).2.2.2.1 "ab\n" rfl

/-- Claim C2 counterexample: with a delegate configured whose edit fails,
a successful fallback replace leaves TWO history entries for the one
operation — one pushed before the delegate call and a second pushed by the
literal path — refuting "does not push a second history entry". -/
theorem claim2_delegate_fallback_counterexample :
    (textEditorReplace (some (fun _ _ _ => .error "delegate failed")) "/tmp/f"
        ⟨some "ab\n", []⟩ "a" "X").2 = .ok () ∧
    (textEditorReplace (some (fun _ _ _ => .error "delegate failed")) "/tmp/f"
        ⟨some "ab\n", []⟩ "a" "X").1.history = ["ab\n", "ab\n"] := by
  refine ⟨by decide, by decide⟩

/-- Claim C2 as amended: on delegate failure the engine unconditionally
falls back to the literal string-replacement algorithm and never surfaces
the delegate's error (the outcome does not depend on the error value `e`):
with a unique match the operation succeeds with the literal result but the
history receives a second entry (two copies of the prior content); with a
non-unique match the returned error is exactly the literal path's
`InvalidParameters` error and one entry remains pushed. -/
theorem claim2_delegate_fallback (st : EditorState) (path c oldStr newStr e : String)
    (d : String → String → String → Except String String)
    (hf : st.file = some c) (hd : d c oldStr newStr = .error e) :
    (countMatchesStr c oldStr = 1 →
      (textEditorReplace (some d) path st oldStr newStr).2 = .ok () ∧
      (textEditorReplace (some d) path st oldStr newStr).1.file =
        some (normalizeLineEndings (rustReplaceStr c oldStr newStr)) ∧
      (textEditorReplace (some d) path st oldStr newStr).1.file =
        (textEditorReplace none path st oldStr newStr).1.file ∧
      (textEditorReplace (some d) path st oldStr newStr).1.history =
        st.history ++ [c, c]) ∧
    (countMatchesStr c oldStr ≠ 1 →
      (textEditorReplace (some d) path st oldStr newStr).2 =
        (textEditorReplace none path st oldStr newStr).2 ∧
      (textEditorReplace (some d) path st oldStr newStr).1.file = some c ∧
      (textEditorReplace (some d) path st oldStr newStr).1.history =
        st.history ++ [c]) := by
  constructor
  · intro hcount
    have h1 : ¬ countMatchesStr c oldStr > 1 := by omega
    have h0 : ¬ countMatchesStr c oldStr = 0 := by omega
    refine ⟨?_, ?_, ?_, ?_⟩ <;>
      simp [textEditorReplace, hf, hd, replaceLiteral, h1, h0, saveFileHistory]
  · intro hcount
    rcases Nat.lt_or_ge (countMatchesStr c oldStr) 1 with hlt | hge
    · have h0 : countMatchesStr c oldStr = 0 := by omega
      have h1 : ¬ countMatchesStr c oldStr > 1 := by omega
      refine ⟨?_, ?_, ?_⟩ <;>
        simp [textEditorReplace, hf, hd, replaceLiteral, h1, h0, saveFileHistory]
    · have h1 : countMatchesStr c oldStr > 1 := by omega
      refine ⟨?_, ?_, ?_⟩ <;>
        simp [textEditorReplace, hf, hd, replaceLiteral, h1, saveFileHistory]

/-- Claim C2 witness: a concrete failing delegate; the fallback succeeds
with the literal result and the history holds two copies. -/
theorem claim2_delegate_fallback_witness :
    (textEditorReplace (some (fun _ _ _ => .error "boom")) "/p"
        ⟨some "xy\n", []⟩ "y" "z").2 = .ok () ∧
    (textEditorReplace (some (fun _ _ _ => .error "boom")) "/p"
        ⟨some "xy\n", []⟩ "y" "z").1.history = ["xy\n", "xy\n"] := by
  have h := (claim2_delegate_fallback ⟨some "xy\n", []⟩ "/p" "xy\n" "y" "z" "boom"
    (fun _ _ _ => .error "boom") rfl rfl).1 (by decide)
  exact ⟨h.1, h.2.2.2⟩

/-- Claim C3 (confirmed): for a replace with no delegate on an existing
file whose content contains `old_str` exactly once, the new file content
is the original with that single occurrence replaced by `new_str`, and a
subsequent undo on the same path restores the original content
byte-identically (and the history stack returns to its prior state). The
contents are assumed free of carriage returns so that the platform
line-ending normalization is the identity. -/
theorem claim3_replace_then_undo (st : EditorState) (path c oldStr newStr : String)
    (hf : st.file = some c) (hcount : countMatchesStr c oldStr = 1)
    (hcr : '\r' ∉ c.data) (hcrn : '\r' ∉ newStr.data) :
    ∃ pre suf : List Char,
      c.data = pre ++ oldStr.data ++ suf ∧
      (textEditorReplace none path st oldStr newStr).2 = .ok () ∧
      (textEditorReplace none path st oldStr newStr).1.file =
        some (String.mk (pre ++ newStr.data ++ suf)) ∧
      textEditorUndo (textEditorReplace none path st oldStr newStr).1 =
        ({ file := some c, history := st.history }, .ok ()) := by
  obtain ⟨pre, suf, hdecomp, hrep⟩ :=
    countOcc_one_decomposition c.data oldStr.data newStr.data hcount
  have h1 : ¬ countMatchesStr c oldStr > 1 := by omega
  have h0 : ¬ countMatchesStr c oldStr = 0 := by omega
  have hrun : textEditorReplace none path st oldStr newStr =
      ({ file := some (normalizeLineEndings (rustReplaceStr c oldStr newStr)),
         history := st.history ++ [c] }, .ok ()) := by
    simp [textEditorReplace, hf, replaceLiteral, h1, h0, saveFileHistory]
  have hnocr : '\r' ∉ pre ++ newStr.data ++ suf := by
    rw [hdecomp] at hcr
    simp only [List.mem_append, not_or] at hcr ⊢
    exact ⟨⟨hcr.1.1, fun hm => hcrn hm⟩, hcr.2⟩
  have hstep : rustReplaceStr c oldStr newStr =
      String.mk (pre ++ newStr.data ++ suf) := by
    unfold rustReplaceStr
    rw [hrep]
  have hnormid : normalizeLineEndings (rustReplaceStr c oldStr newStr) =
      String.mk (pre ++ newStr.data ++ suf) := by
    rw [hstep]
    unfold normalizeLineEndings
    rw [show (String.mk (pre ++ newStr.data ++ suf)).data =
        pre ++ newStr.data ++ suf from rfl]
    rw [normCRLF_eq_self _ hnocr]
  refine ⟨pre, suf, hdecomp, ?_, ?_, ?_⟩
  · rw [hrun]
  · rw [hrun, hnormid]
  · rw [hrun]
    unfold textEditorUndo
    simp [List.getLast?_concat, List.dropLast_concat]

/-- Claim C3 witness: replacing the unique occurrence of "world" and then
undoing restores the original file and history. -/
theorem claim3_replace_then_undo_witness :
    textEditorUndo (textEditorReplace none "/w" ⟨some "hello world\n", []⟩
        "world" "Rust").1 = (⟨some "hello world\n", []⟩, .ok ()) ∧
    (textEditorReplace none "/w" ⟨some "hello world\n", []⟩ "world" "Rust").2 =
      .ok () := by
  obtain ⟨pre, suf, h1, h2, h3, h4⟩ :=
    claim3_replace_then_undo ⟨some "hello world\n", []⟩ "/w" "hello world\n"
      "world" "Rust" rfl (by decide) (by decide) (by decide)
  exact ⟨h4, h2⟩

/-- Claim C6 counterexample: a view range [2, 2] on a five-line file
succeeds (showing line 2) although the claim requires every call with
start ≥ end to fail with InvalidParameters. -/
theorem claim6_view_range_counterexample :
    textEditorViewRange "a\nb\nc\nd\ne" (some (2, 2)) = .ok "2: b" := by decide

/-- Claim C6 as amended: with a 1-indexed range [start, end] (end = -1
meaning end of file), the view fails with an InvalidParameters error when
start - 1 reaches the line count ("beyond the end of the file"), fails
with an InvalidParameters error when start - 1 reaches the end index (the
end value clamped to the line count) — that is, when start exceeds end,
while start = end succeeds and shows a single line — and succeeds with the
numbered rendering otherwise. -/
theorem claim6_view_range_validation (content : String) (startLine : Nat)
    (endLine : Int) :
    (((if startLine > 0 then startLine - 1 else 0) ≥ (rustLinesStr content).length) →
      textEditorViewRange content (some (startLine, endLine)) =
        .error (.InvalidParameters ("Start line " ++ toString startLine ++
          " is beyond the end of the file (total lines: " ++
          toString (rustLinesStr content).length ++ ")"))) ∧
    (((if startLine > 0 then startLine - 1 else 0) < (rustLinesStr content).length) →
      ((if startLine > 0 then startLine - 1 else 0) ≥
        (if endLine = -1 then (rustLinesStr content).length
         else min (endLine % (2 ^ 64 : Int)).toNat (rustLinesStr content).length)) →
      textEditorViewRange content (some (startLine, endLine)) =
        .error (.InvalidParameters ("Start line " ++ toString startLine ++
          " must be less than end line " ++ toString endLine))) ∧
    (((if startLine > 0 then startLine - 1 else 0) < (rustLinesStr content).length) →
      ((if startLine > 0 then startLine - 1 else 0) <
        (if endLine = -1 then (rustLinesStr content).length
         else min (endLine % (2 ^ 64 : Int)).toNat (rustLinesStr content).length)) →
      textEditorViewRange content (some (startLine, endLine)) =
        .ok (viewRender (rustLinesStr content)
          (if startLine > 0 then startLine - 1 else 0)
          (if endLine = -1 then (rustLinesStr content).length
           else min (endLine % (2 ^ 64 : Int)).toNat (rustLinesStr content).length))) := by
  refine ⟨?_, ?_, ?_⟩
  · intro hbeyond
    simp only [textEditorViewRange]
    rw [if_pos hbeyond]
  · intro hin hge
    simp only [textEditorViewRange]
    rw [if_neg (by omega), if_pos hge]
  · intro hin hlt
    simp only [textEditorViewRange]
    rw [if_neg (by omega), if_neg (by omega)]

/-- Claim C6 witness: the spec's scenario, view_range [10, 15] on a
three-line file, fails with the beyond-the-end InvalidParameters error. -/
theorem claim6_view_range_validation_witness :
    textEditorViewRange "a\nb\nc" (some (10, 15)) =
      .error (.InvalidParameters ("Start line " ++ toString (10 : Nat) ++
        " is beyond the end of the file (total lines: " ++
        toString (rustLinesStr "a\nb\nc").length ++ ")")) :=
  (claim6_view_range_validation "a\nb\nc" 10 15).1 (by decide)

/-- Claim C7 counterexample: inserting a two-line `new_str` at line 0 of a
one-line file yields a three-line file, not a file with exactly one more
line; the operation nevertheless succeeds. -/
theorem claim7_insert_counterexample :
    (textEditorInsert "/t" ⟨some "a\n", []⟩ 0 "x\ny").2 = .ok () ∧
    (rustLinesStr ((textEditorInsert "/t" ⟨some "a\n", []⟩ 0 "x\ny").1.file.getD
      "")).length = 3 := by
  refine ⟨by decide, by decide⟩

/-- Claim C7 as amended: for an insert of a single-line (newline-free),
nonempty `new_str` on an existing file whose last line is nonempty, with
`insert_line` in [0, lineCount], the resulting file has exactly one more
line than before, with the new text at position `insert_line` and a
guaranteed trailing newline; with `insert_line` beyond the line count the
operation fails with an InvalidParameters error citing the valid range and
the file is left unmodified (in general, a `new_str` containing k newlines
adds k + 1 lines). Contents are assumed free of carriage returns so that
the platform line-ending normalization is the identity. -/
theorem claim7_insert_line (st : EditorState) (path c insStr : String) (n : Nat)
    (hf : st.file = some c) (hcr : '\r' ∉ c.data) :
    ((n ≤ (rustLinesStr c).length → '\n' ∉ insStr.data → '\r' ∉ insStr.data →
      insStr ≠ "" → (rustLinesStr c).getLast? ≠ some "" →
      (textEditorInsert path st n insStr).2 = .ok () ∧
      rustLinesStr ((textEditorInsert path st n insStr).1.file.getD "") =
        (rustLinesStr c).take n ++ insStr :: (rustLinesStr c).drop n ∧
      (rustLinesStr ((textEditorInsert path st n insStr).1.file.getD "")).length =
        (rustLinesStr c).length + 1 ∧
      (rustLinesStr ((textEditorInsert path st n insStr).1.file.getD ""))[n]? =
        some insStr ∧
      endsWithChar ((textEditorInsert path st n insStr).1.file.getD "") '\n' =
        true) ∧
     (n > (rustLinesStr c).length →
      (textEditorInsert path st n insStr).2 = .error (.InvalidParameters
        ("Insert line " ++ toString n ++
          " is beyond the end of the file (total lines: " ++
          toString (rustLinesStr c).length ++
          "). Use 0 to insert at the beginning or " ++
          toString (rustLinesStr c).length ++ " to insert at the end.")) ∧
      (textEditorInsert path st n insStr).1.file = some c)) := by
  constructor
  · intro hn hnl hcr2 hne hlastne
    have hngt : ¬ n > (rustLinesStr c).length := by omega
    have hbuild : buildInsert (rustLinesStr c) n insStr =
        (rustLinesStr c).take n ++ insStr :: (rustLinesStr c).drop n :=
      buildInsert_eq (rustLinesStr c) n insStr hn
    have hlineprops : ∀ l ∈ rustLinesStr c, '\n' ∉ l.data ∧ '\r' ∉ l.data := by
      intro l hl
      obtain ⟨p, hp, rfl⟩ := List.mem_map.mp hl
      exact ⟨rustLinesC_nonl hp, fun hx => hcr (rustLinesC_subset hp _ hx)⟩
    have hmemprops : ∀ l ∈ (rustLinesStr c).take n ++ insStr :: (rustLinesStr c).drop n,
        '\n' ∉ l.data ∧ '\r' ∉ l.data := by
      intro l hl
      rcases List.mem_append.mp hl with h1 | h1
      · exact hlineprops l (List.take_subset n _ h1)
      · rcases List.mem_cons.mp h1 with h2 | h2
        · exact h2 ▸ ⟨hnl, hcr2⟩
        · exact hlineprops l (List.drop_subset n _ h2)
    have hjoindata : (joinLines ((rustLinesStr c).take n ++
        insStr :: (rustLinesStr c).drop n)).data =
        joinNlC (((rustLinesStr c).take n ++
          insStr :: (rustLinesStr c).drop n).map String.data) := rfl
    have hjoinnocr : '\r' ∉ joinNlC (((rustLinesStr c).take n ++
        insStr :: (rustLinesStr c).drop n).map String.data) := by
      intro hx
      rcases mem_joinNlC _ _ hx with ⟨l, hl, hxl⟩ | heq
      · obtain ⟨l', hl', rfl⟩ := List.mem_map.mp hl
        exact (hmemprops l' hl').2 hxl
      · cases heq
    have hnormid : normalizeLineEndings (joinLines ((rustLinesStr c).take n ++
        insStr :: (rustLinesStr c).drop n)) =
        joinLines ((rustLinesStr c).take n ++ insStr :: (rustLinesStr c).drop n) := by
      unfold normalizeLineEndings
      apply String.ext
      rw [show (String.mk (normCRLF (joinLines ((rustLinesStr c).take n ++
        insStr :: (rustLinesStr c).drop n)).data)).data =
        normCRLF (joinLines ((rustLinesStr c).take n ++
          insStr :: (rustLinesStr c).drop n)).data from rfl]
      rw [hjoindata, normCRLF_eq_self _ hjoinnocr]
    have hlastline : ∃ llast, ((rustLinesStr c).take n ++
        insStr :: (rustLinesStr c).drop n).getLast? = some llast ∧
        llast.data ≠ [] := by
      rw [List.getLast?_append_of_ne_nil _ (by simp)]
      cases hdrop : (rustLinesStr c).drop n with
      | nil =>
        refine ⟨insStr, rfl, ?_⟩
        intro hd
        exact hne (String.ext hd)
      | cons d ds2 =>
        have h5 : ((rustLinesStr c).drop n).getLast? = (rustLinesStr c).getLast? := by
          conv_rhs => rw [← List.take_append_drop n (rustLinesStr c)]
          rw [List.getLast?_append_of_ne_nil _ (by rw [hdrop]; simp)]
        rw [hdrop] at h5
        cases hg : (rustLinesStr c).getLast? with
        | none =>
          rw [hg] at h5
          simp at h5
        | some llast =>
          rw [hg] at h5
          refine ⟨llast, by rw [List.getLast?_cons_cons, h5], ?_⟩
          intro hd
          exact hlastne (hg.trans (by rw [String.ext hd]))
    obtain ⟨llast, hlasteq, hlastdata⟩ := hlastline
    have hlastmem : llast ∈ (rustLinesStr c).take n ++
        insStr :: (rustLinesStr c).drop n := mem_of_getLast?_eq hlasteq
    have hjoinlast : (joinNlC (((rustLinesStr c).take n ++
        insStr :: (rustLinesStr c).drop n).map String.data)).getLast? =
        llast.data.getLast? := by
      apply joinNlC_getLast?
      · rw [List.getLast?_map, hlasteq]
        rfl
      · exact hlastdata
    have hnoend : endsWithChar (joinLines ((rustLinesStr c).take n ++
        insStr :: (rustLinesStr c).drop n)) '\n' = false := by
      unfold endsWithChar
      rw [hjoindata, hjoinlast]
      cases hgl : llast.data.getLast? with
      | none =>
        exact absurd (List.getLast?_eq_none_iff.mp hgl) hlastdata
      | some x =>
        have hxmem : x ∈ llast.data := mem_of_getLast?_eq hgl
        have hxne : x ≠ '\n' := fun hh =>
          (hmemprops llast hlastmem).1 (hh ▸ hxmem)
        simp [hxne]
    have hrun : textEditorInsert path st n insStr =
        ({ file := some (joinLines ((rustLinesStr c).take n ++
            insStr :: (rustLinesStr c).drop n) ++ "\n"),
           history := st.history ++ [c] }, .ok ()) := by
      simp only [textEditorInsert, hf]
      rw [if_neg hngt, hbuild, hnormid]
      rw [hnoend]
      simp [saveFileHistory, hf]
    have hfinaldata : (joinLines ((rustLinesStr c).take n ++
        insStr :: (rustLinesStr c).drop n) ++ "\n").data =
        joinNlC (((rustLinesStr c).take n ++
          insStr :: (rustLinesStr c).drop n).map String.data) ++ ['\n'] := by
      rw [String.data_append, hjoindata]
    have hCdata : rustLinesC ((joinLines ((rustLinesStr c).take n ++
        insStr :: (rustLinesStr c).drop n) ++ "\n").data) =
        ((rustLinesStr c).take n ++ insStr :: (rustLinesStr c).drop n).map
          String.data := by
      rw [hfinaldata]
      apply rustLinesC_join
      · intro l hl
        obtain ⟨l', hl', rfl⟩ := List.mem_map.mp hl
        exact (hmemprops l' hl').1
      · intro l hl
        obtain ⟨l', hl', rfl⟩ := List.mem_map.mp hl
        exact stripCRC_eq_self (hmemprops l' hl').2
      · simp
    have hlines : rustLinesStr (joinLines ((rustLinesStr c).take n ++
        insStr :: (rustLinesStr c).drop n) ++ "\n") =
        (rustLinesStr c).take n ++ insStr :: (rustLinesStr c).drop n := by
      rw [show rustLinesStr (joinLines ((rustLinesStr c).take n ++
          insStr :: (rustLinesStr c).drop n) ++ "\n") =
          (rustLinesC ((joinLines ((rustLinesStr c).take n ++
            insStr :: (rustLinesStr c).drop n) ++ "\n").data)).map
            (fun l => String.mk l) from rfl]
      rw [hCdata]
      rw [List.map_map]
      rw [List.map_congr_left (fun a _ => rfl :
        ∀ a ∈ (rustLinesStr c).take n ++ insStr :: (rustLinesStr c).drop n,
          ((fun l => String.mk l) ∘ String.data) a = id a)]
      exact List.map_id _
    have hfile : (textEditorInsert path st n insStr).1.file.getD "" =
        joinLines ((rustLinesStr c).take n ++
          insStr :: (rustLinesStr c).drop n) ++ "\n" := by
      rw [hrun]
      rfl
    refine ⟨by rw [hrun], ?_, ?_, ?_, ?_⟩
    · rw [hfile]
      exact hlines
    · rw [hfile, hlines]
      simp only [List.length_append, List.length_cons, List.length_take,
        List.length_drop]
      omega
    · rw [hfile, hlines]
      rw [List.getElem?_append_right (by rw [List.length_take]; omega)]
      rw [show n - ((rustLinesStr c).take n).length = 0 by
        rw [List.length_take]; omega]
      simp
    · rw [hfile]
      unfold endsWithChar
      rw [String.data_append]
      rw [show ("\n" : String).data = ['\n'] from rfl]
      rw [List.getLast?_concat]
      rfl
  · intro hgt
    constructor
    · simp [textEditorInsert, hf, hgt]
    · simp [textEditorInsert, hf, hgt, saveFileHistory]

/-- Claim C7 witness: inserting "x" at line 1 of a two-line file succeeds
and splices the line in; inserting at line 5 leaves the file unmodified. -/
theorem claim7_insert_line_witness :
    (textEditorInsert "/t" ⟨some "a\nb\n", []⟩ 1 "x").2 = .ok () ∧
    rustLinesStr ((textEditorInsert "/t" ⟨some "a\nb\n", []⟩ 1 "x").1.file.getD "") =
      (rustLinesStr "a\nb\n").take 1 ++ "x" :: (rustLinesStr "a\nb\n").drop 1 ∧
    (textEditorInsert "/t" ⟨some "a\nb\n", []⟩ 5 "x").1.file = some "a\nb\n" := by
  have h := claim7_insert_line ⟨some "a\nb\n", []⟩ "/t" "a\nb\n" "x" 1 rfl (by decide)
  have ha := h.1 (by decide) (by decide) (by decide) (by decide) (by decide)
  have h2 := claim7_insert_line ⟨some "a\nb\n", []⟩ "/t" "a\nb\n" "x" 5 rfl (by decide)
  exact ⟨ha.1, ha.2.1, (h2.2 (by decide)).2⟩
